import Mathlib

/-!
Verification development for the dotfiles manager (Rust sources in `src/`).

Strings are modelled as `List Char`, byte sequences as `List Nat` (each < 256
where relevant).  Each definition is a shallow embedding of the corresponding
Rust function; external crates (pct-str, ureq, the xml pull reader, the local
filesystem, the S3 client, stdin) are modelled by explicit parameters or by
small definitions whose doc comments state the library semantics they encode.
-/

/-- RFC 3986 unreserved characters: ALPHA / DIGIT / "-" / "." / "_" / "~". -/
def isUnreserved (c : Char) : Bool :=
  c.isAlphanum || c == '-' || c == '.' || c == '_' || c == '~'

/-- RFC 3986 reserved characters: the gen-delims `: / ? # [ ] @` and the
sub-delims `! $ & ' ( ) * + , ; =`. -/
def isUriReserved (c : Char) : Bool :=
  c == ':' || c == '/' || c == '?' || c == '#' || c == '[' || c == ']' || c == '@' ||
  c == '!' || c == '$' || c == '&' || c == '\'' || c == '(' || c == ')' ||
  c == '*' || c == '+' || c == ',' || c == ';' || c == '='

/-- The encoding set of `pct_str::URIReserved` as used by `get_segments` in
`src/src/webdav.rs`: the RFC 3986 reserved characters, the percent sign
itself, and every character that cannot appear literally in a
percent-encoded string — space, control characters, DEL and all non-ASCII
(the repository's special-character tests exercise spaces and non-ASCII and
require them to be escaped on the wire).  ASCII-graphic characters outside
the reserved set, such as `{`, `|` or `"`, are left raw. -/
def needsEncoding (c : Char) : Bool :=
  isUriReserved c || c == '%' || c.toNat < 0x21 || 0x7E < c.toNat

/-- Uppercase hexadecimal digit for a value below 16. -/
def hexDigitChar (n : Nat) : Char :=
  if n < 10 then Char.ofNat ('0'.toNat + n) else Char.ofNat ('A'.toNat + (n - 10))

/-- Value of a hexadecimal digit (either case), as accepted when validating a
percent-encoded string. -/
def hexVal (c : Char) : Option Nat :=
  if 48 ≤ c.toNat && c.toNat ≤ 57 then some (c.toNat - 48)
  else if 65 ≤ c.toNat && c.toNat ≤ 70 then some (c.toNat - 65 + 10)
  else if 97 ≤ c.toNat && c.toNat ≤ 102 then some (c.toNat - 97 + 10)
  else none

/-- UTF-8 encoding of one character (1 to 4 bytes). -/
def utf8EncodeChar (c : Char) : List Nat :=
  let v := c.toNat
  if v < 0x80 then [v]
  else if v < 0x800 then [0xC0 + v / 0x40, 0x80 + v % 0x40]
  else if v < 0x10000 then
    [0xE0 + v / 0x1000, 0x80 + (v / 0x40) % 0x40, 0x80 + v % 0x40]
  else
    [0xF0 + v / 0x40000, 0x80 + (v / 0x1000) % 0x40, 0x80 + (v / 0x40) % 0x40,
      0x80 + v % 0x40]

/-- Whether a byte is a UTF-8 continuation byte. -/
def isCont (b : Nat) : Bool := 0x80 ≤ b && b < 0xC0

/-- Decode one UTF-8 sequence from the front of a byte stream: returns the
scalar value and the remaining bytes, or `none` when the head is ill-formed. -/
def utf8Step1 (b : Nat) (bs : List Nat) : Option (Nat × List Nat) :=
  if b < 0x80 then some (b, bs)
  else if b < 0xC2 then none
  else if b < 0xE0 then
    match bs with
    | b1 :: bs1 =>
      if isCont b1 then some ((b - 0xC0) * 0x40 + (b1 - 0x80), bs1) else none
    | [] => none
  else if b < 0xF0 then
    match bs with
    | b1 :: b2 :: bs2 =>
      if isCont b1 && isCont b2 then
        some ((b - 0xE0) * 0x1000 + (b1 - 0x80) * 0x40 + (b2 - 0x80), bs2)
      else none
    | _ => none
  else if b < 0xF5 then
    match bs with
    | b1 :: b2 :: b3 :: bs3 =>
      if isCont b1 && isCont b2 && isCont b3 then
        some ((b - 0xF0) * 0x40000 + (b1 - 0x80) * 0x1000 + (b2 - 0x80) * 0x40 + (b3 - 0x80),
          bs3)
      else none
    | _ => none
  else none

/-- Fuel-indexed UTF-8 decoding loop; each step consumes at least one byte, so
fuel equal to the byte count always suffices. -/
def utf8DecodeAux : Nat → List Nat → Option (List Char)
  | _, [] => some []
  | 0, _ :: _ => none
  | fuel + 1, b :: bs =>
    match utf8Step1 b bs with
    | none => none
    | some (v, rest) => (utf8DecodeAux fuel rest).map (fun cs => Char.ofNat v :: cs)

/-- UTF-8 decoding of a byte sequence; `none` on any ill-formed sequence. -/
def utf8Decode (l : List Nat) : Option (List Char) :=
  utf8DecodeAux l.length l

/-- Percent-escape of one byte: `%` followed by two uppercase hex digits. -/
def pctEscapeByte (b : Nat) : List Char :=
  ['%', hexDigitChar (b / 16), hexDigitChar (b % 16)]

/-- Encoding of one character as performed inside `get_segments`
(`PctString::encode(s.chars(), URIReserved)`): characters needing encoding are
replaced by the percent-escapes of their UTF-8 bytes, the rest pass through. -/
def pctEncodeChar (c : Char) : List Char :=
  if needsEncoding c then (utf8EncodeChar c).flatMap pctEscapeByte else [c]

/-- Rust's `str::split('/')`: always yields at least one (possibly empty)
segment; a separator at either end yields an empty segment there. -/
def splitOnSlash : List Char → List (List Char)
  | [] => [[]]
  | c :: cs =>
    if c = '/' then [] :: splitOnSlash cs
    else
      match splitOnSlash cs with
      | [] => [[c]]
      | s :: ss => (c :: s) :: ss

/-- `get_segments` from `src/src/webdav.rs`: split the key on `/` and
percent-encode each segment independently. -/
def get_segments (key : List Char) : List (List Char) :=
  (splitOnSlash key).map (fun s => s.flatMap pctEncodeChar)

/-- `Vec::join("/")` on segments, as used to build request paths. -/
def joinSlash : List (List Char) → List Char
  | [] => []
  | [s] => s
  | s :: ss => s ++ '/' :: joinSlash ss

/-- The wire form of a key: encoded segments rejoined with `/`, exactly
`get_segments(key).join("/")` as in `Webdav::get`/`delete` and the path pushed
by `Webdav::put`. -/
def wireEncodeKey (key : List Char) : List Char :=
  joinSlash (get_segments key)

/-- Reads the two hex digits following a `%`: the byte value and the
remaining characters, or `none` when fewer than two valid hex digits follow
(which is `PctString::new`'s validation failure). -/
def pctStep (rest : List Char) : Option (Nat × List Char) :=
  match rest with
  | h1 :: h2 :: rest2 =>
    match hexVal h1, hexVal h2 with
    | some a, some b => some (a * 16 + b, rest2)
    | _, _ => none
  | _ => none

/-- Fuel-indexed percent-decoding loop; each step consumes at least one
character, so fuel equal to the character count always suffices. -/
def pctDecodeAux : Nat → List Char → Option (List Nat)
  | _, [] => some []
  | 0, _ :: _ => none
  | fuel + 1, c :: rest =>
    if c = '%' then
      match pctStep rest with
      | some (b, rest2) => (pctDecodeAux fuel rest2).map (fun bs => b :: bs)
      | none => none
    else
      (pctDecodeAux fuel rest).map (fun bs => utf8EncodeChar c ++ bs)

/-- Percent-decoding to bytes as performed by `PctString::new(..)?.decode()`
in `Webdav::list`: every `%XX` escape becomes the byte `XX` (`none` when a `%`
is not followed by two hex digits), and every raw character contributes its
UTF-8 bytes. -/
def pctDecodeBytes (l : List Char) : Option (List Nat) :=
  pctDecodeAux l.length l

/-- Full percent-decode of a percent-encoded string back to text, `none` on
invalid escapes or ill-formed UTF-8. -/
def pctDecode (s : List Char) : Option (List Char) :=
  (pctDecodeBytes s).bind utf8Decode

example : get_segments ['a', '/', 'b'] = [['a'], ['b']] := by decide
example : splitOnSlash [] = [[]] := by decide
example : pctEncodeChar ' ' = ['%', '2', '0'] := by decide
example : pctDecode ['%', '2', '0', 'a'] = some [' ', 'a'] := by decide

/-! ## `Webdav::put` (src/src/webdav.rs, lines 67-113) -/

/-- HTTP verbs issued by the client. -/
inductive Verb
  | propfind
  | mkcol
  | httpPut
  | httpGet
  | httpDelete
deriving DecidableEq, Repr

/-- Outcome of one `ureq` request: success, an HTTP error status
(`Error::StatusCode`), or any other transport-level error. -/
inductive HttpOutcome
  | success
  | statusErr (code : Nat)
  | transportErr
deriving DecidableEq, Repr

/-- A server behaviour: the outcome of each request, keyed by verb and by the
request path (a list of path segments). -/
abbrev Server := Verb → List (List Char) → HttpOutcome

/-- One request issued by `Webdav::put`, with the headers the code sets. -/
inductive WdEvent
  | propfind (path : List (List Char)) (depth : Nat)
  | mkcol (path : List (List Char))
  | put (path : List (List Char)) (body : List Nat)
deriving DecidableEq, Repr

/-- Errors `Webdav::put` can return. -/
inductive WdErr
  | invalidPath
  | emptyKey
  | status (code : Nat)
  | transport
deriving DecidableEq, Repr

/-- Models `iref`'s `uri::SegmentBuf::new` on an encoded segment: accepts
strings made of `pchar`-class characters — unreserved characters, the
percent signs of escapes (with their hex digits, which are unreserved),
sub-delims, `:` and `@` — and rejects anything else, e.g. a raw `{`, `|` or
`"` that `URIReserved` left unencoded; `put` maps a rejection to its
"Invalid path name" error. -/
def segmentBufNew (s : List Char) : Option (List Char) :=
  if s.all (fun c =>
      isUnreserved c || c == '%' || c == ':' || c == '@' ||
      c == '!' || c == '$' || c == '&' || c == '\'' || c == '(' || c == ')' ||
      c == '*' || c == '+' || c == ',' || c == ';' || c == '=') then
    some s
  else none

/-- The `collect::<Result<Vec<SegmentBuf>>>` step of `Webdav::put`: validate
every encoded segment, failing on the first rejected one. -/
def validateSegments : List (List Char) → Option (List (List Char))
  | [] => some []
  | s :: ss =>
    match segmentBufNew s, validateSegments ss with
    | some t, some ts => some (t :: ts)
    | _, _ => none

/-- The parent-collection provisioning loop of `Webdav::put`: for each parent
segment, push it onto the cumulative path, issue `PROPFIND` with `Depth: 1`;
on status 404 issue `MKCOL` on that same path; propagate any other error.
Returns the requests issued, the error if any, and the final cumulative path. -/
def wdPutLoop (server : Server) :
    List (List Char) → List (List Char) →
    List WdEvent × Option WdErr × List (List Char)
  | tmp, [] => ([], none, tmp)
  | tmp, s :: rest =>
    let tmp2 := tmp ++ [s]
    let ev := WdEvent.propfind tmp2 1
    match server Verb.propfind tmp2 with
    | HttpOutcome.success =>
      let r := wdPutLoop server tmp2 rest
      (ev :: r.1, r.2.1, r.2.2)
    | HttpOutcome.statusErr code =>
      if code = 404 then
        match server Verb.mkcol tmp2 with
        | HttpOutcome.success =>
          let r := wdPutLoop server tmp2 rest
          (ev :: WdEvent.mkcol tmp2 :: r.1, r.2.1, r.2.2)
        | HttpOutcome.statusErr c2 =>
          ([ev, WdEvent.mkcol tmp2], some (WdErr.status c2), tmp2)
        | HttpOutcome.transportErr =>
          ([ev, WdEvent.mkcol tmp2], some WdErr.transport, tmp2)
      else ([ev], some (WdErr.status code), tmp2)
    | HttpOutcome.transportErr => ([ev], some WdErr.transport, tmp2)

/-- `Webdav::put` over an abstract server: validate the encoded segments
(`SegmentBuf::new`), drop the base URI's trailing empty segment (the source
pops the trailing `/`), provision every parent collection, then `PUT` the body
at the full path.  Returns the requests issued and the error, if any. -/
def wdPut (server : Server) (base : List (List Char)) (key : List Char)
    (body : List Nat) : List WdEvent × Option WdErr :=
  match validateSegments (get_segments key) with
  | none => ([], some WdErr.invalidPath)
  | some segments =>
    let r := wdPutLoop server base.dropLast segments.dropLast
    match r.2.1 with
    | some e => (r.1, some e)
    | none =>
      match segments.getLast? with
      | none => (r.1, some WdErr.emptyKey)
      | some lastSeg =>
        let path := r.2.2 ++ [lastSeg]
        let ev := WdEvent.put path body
        match server Verb.httpPut path with
        | HttpOutcome.success => (r.1 ++ [ev], none)
        | HttpOutcome.statusErr c => (r.1 ++ [ev], some (WdErr.status c))
        | HttpOutcome.transportErr => (r.1 ++ [ev], some WdErr.transport)

/-- Modelled from the spec's PUT procedure, for comparison with `wdPut`:
"Decompose `key` into segments `s1..sN`.  For each prefix `s1..si`
(i = 1..N-1, outermost first), build the cumulative collection URI and issue
`PROPFIND` with `Depth: 1`.  Status 404 ⇒ issue `MKCOL` on exactly that
collection, then continue.  Any other error status ⇒ abort the whole put,
propagating the error.  After all parents are confirmed/created, issue `PUT`
of the final segment with the body bytes."  The cumulative collection URI for
prefix `s1..si` is the base collection followed by the first `i` segments. -/
def specPutProvision (server : Server) :
    List (List (List Char)) → List WdEvent × Option WdErr
  | [] => ([], none)
  | u :: rest =>
    let ev := WdEvent.propfind u 1
    match server Verb.propfind u with
    | HttpOutcome.success =>
      let r := specPutProvision server rest
      (ev :: r.1, r.2)
    | HttpOutcome.statusErr code =>
      if code = 404 then
        match server Verb.mkcol u with
        | HttpOutcome.success =>
          let r := specPutProvision server rest
          (ev :: WdEvent.mkcol u :: r.1, r.2)
        | HttpOutcome.statusErr c2 => ([ev, WdEvent.mkcol u], some (WdErr.status c2))
        | HttpOutcome.transportErr => ([ev, WdEvent.mkcol u], some WdErr.transport)
      else ([ev], some (WdErr.status code))
    | HttpOutcome.transportErr => ([ev], some WdErr.transport)

/-- Modelled from the spec's PUT procedure (§4.2): provision each proper
prefix of the key outermost first, then `PUT` the body at the full encoded
path under the base collection. -/
def specPut (server : Server) (base : List (List Char)) (key : List Char)
    (body : List Nat) : List WdEvent × Option WdErr :=
  let segs := get_segments key
  let r := specPutProvision server
    ((List.range (segs.length - 1)).map (fun i => base.dropLast ++ segs.take (i + 1)))
  match r.2 with
  | some e => (r.1, some e)
  | none =>
    let path := base.dropLast ++ segs
    let ev := WdEvent.put path body
    match server Verb.httpPut path with
    | HttpOutcome.success => (r.1 ++ [ev], none)
    | HttpOutcome.statusErr c => (r.1 ++ [ev], some (WdErr.status c))
    | HttpOutcome.transportErr => (r.1 ++ [ev], some WdErr.transport)

theorem splitOnSlash_ne_nil (l : List Char) : splitOnSlash l ≠ [] := by
  cases l with
  | nil => simp [splitOnSlash]
  | cons c cs =>
    simp only [splitOnSlash]
    split
    · simp
    · cases h : splitOnSlash cs <;> simp

theorem get_segments_ne_nil (key : List Char) : get_segments key ≠ [] := by
  unfold get_segments
  intro h
  exact splitOnSlash_ne_nil key (List.map_eq_nil_iff.mp h)

theorem char_toNat_lt (c : Char) : c.toNat < 1114112 := by
  have h := c.valid
  rcases h with h | h
  · exact Nat.lt_trans h (by norm_num)
  · exact h.2

theorem utf8EncodeChar_lt_256 (c : Char) : ∀ b ∈ utf8EncodeChar c, b < 256 := by
  intro b hb
  have hv := char_toNat_lt c
  simp only [utf8EncodeChar] at hb
  split at hb
  · simp only [List.mem_singleton] at hb
    omega
  · split at hb
    · simp only [List.mem_cons, List.mem_singleton, List.not_mem_nil, or_false] at hb
      rcases hb with rfl | rfl <;> omega
    · split at hb
      · simp only [List.mem_cons, List.mem_singleton, List.not_mem_nil, or_false] at hb
        rcases hb with rfl | rfl | rfl <;> omega
      · simp only [List.mem_cons, List.mem_singleton, List.not_mem_nil, or_false] at hb
        rcases hb with rfl | rfl | rfl | rfl <;> omega

theorem segmentBufNew_some_eq (s t : List Char) (h : segmentBufNew s = some t) :
    t = s := by
  unfold segmentBufNew at h
  split at h
  · exact (Option.some.injEq ..).mp h.symm
  · exact Option.noConfusion h

theorem validateSegments_some_eq :
    ∀ (l m : List (List Char)), validateSegments l = some m → m = l := by
  intro l
  induction l with
  | nil =>
    intro m h
    simp only [validateSegments, Option.some.injEq] at h
    exact h.symm
  | cons s ss ih =>
    intro m h
    simp only [validateSegments] at h
    split at h
    · rename_i t ts heq1 heq2
      simp only [Option.some.injEq] at h
      rw [← h, segmentBufNew_some_eq s t heq1, ih ts heq2]
    · exact Option.noConfusion h

theorem wdPutLoop_err_ne_emptyKey (server : Server) :
    ∀ (ss tmp : List (List Char)),
      (wdPutLoop server tmp ss).2.1 ≠ some WdErr.emptyKey := by
  intro ss
  induction ss with
  | nil => intro tmp; simp [wdPutLoop]
  | cons s rest ih =>
    intro tmp
    simp only [wdPutLoop]
    split
    · simpa using ih (tmp ++ [s])
    · split
      · split
        · simpa using ih (tmp ++ [s])
        · simp
        · simp
      · simp
    · simp

theorem wdPutLoop_spec (server : Server) :
    ∀ (ss tmp : List (List Char)),
      (wdPutLoop server tmp ss).1 =
        (specPutProvision server
          ((List.range ss.length).map (fun i => tmp ++ ss.take (i + 1)))).1 ∧
      (wdPutLoop server tmp ss).2.1 =
        (specPutProvision server
          ((List.range ss.length).map (fun i => tmp ++ ss.take (i + 1)))).2 ∧
      ((wdPutLoop server tmp ss).2.1 = none →
        (wdPutLoop server tmp ss).2.2 = tmp ++ ss) := by
  intro ss
  induction ss with
  | nil => intro tmp; simp [wdPutLoop, specPutProvision]
  | cons s rest ih =>
    intro tmp
    have hrange :
        (List.range (s :: rest).length).map (fun i => tmp ++ (s :: rest).take (i + 1)) =
          (tmp ++ [s]) ::
            (List.range rest.length).map (fun i => (tmp ++ [s]) ++ rest.take (i + 1)) := by
      rw [List.length_cons, List.range_succ_eq_map, List.map_cons, List.map_map]
      congr 1
      apply List.map_congr_left
      intro i _
      simp [Function.comp, List.take_succ_cons, List.append_assoc]
    rw [hrange]
    obtain ⟨h1, h2, h3⟩ := ih (tmp ++ [s])
    simp only [wdPutLoop, specPutProvision]
    split
    · refine ⟨by simp [h1], by simp [h2], ?_⟩
      intro hnone
      simp only at hnone
      simp [h3 hnone, List.append_assoc]
    · split
      · split
        · refine ⟨by simp [h1], by simp [h2], ?_⟩
          intro hnone
          simp only at hnone
          simp [h3 hnone, List.append_assoc]
        · simp
        · simp
      · simp
    · simp

/-- Counterexample for C1 as stated: the key `a/{` has two segments, but
`URIReserved` leaves the raw `{` unencoded and `SegmentBuf::new` rejects it,
so `Webdav::put` fails with its "Invalid path name" error before issuing ANY
request — no `PROPFIND` is issued for the parent collection, against an
all-success server, and no `PUT` of the body ever happens. -/
theorem put_invalid_segment_aborts_without_requests :
    2 ≤ (get_segments ['a', '/', '{']).length ∧
      wdPut (fun _ _ => HttpOutcome.success) [['d'], []] ['a', '/', '{'] [1]
        = ([], some WdErr.invalidPath) := by
  constructor
  · decide
  · rfl

/-- C1 as amended: for every key whose decomposition yields at least two
segments and all of whose percent-encoded segments are accepted as URI path
segments (`SegmentBuf::new` succeeds on each), `Webdav::put` behaves exactly
as the spec's PUT procedure: it issues a `PROPFIND` with `Depth: 1` on each
cumulative parent collection URI outermost first, answers a 404 with exactly
one `MKCOL` on that same collection before continuing, aborts on any other
error with no `PUT` issued, and only after all parents are confirmed or
created issues the `PUT` of the full encoded key with the body bytes.  (For
a key with a segment the validation rejects — e.g. a raw `{` — `put` instead
fails with "Invalid path name" before issuing any request, see
`put_invalid_segment_aborts_without_requests`.) -/
theorem put_provisions_parents_then_puts (server : Server)
    (base : List (List Char)) (key : List Char) (body : List Nat)
    (hv : validateSegments (get_segments key) = some (get_segments key))
    (_h : 2 ≤ (get_segments key).length) :
    wdPut server base key body = specPut server base key body := by
  have hne : get_segments key ≠ [] := get_segments_ne_nil key
  obtain ⟨h1, h2, h3⟩ := wdPutLoop_spec server (get_segments key).dropLast base.dropLast
  have hcoll :
      (List.range (get_segments key).dropLast.length).map
          (fun i => base.dropLast ++ (get_segments key).dropLast.take (i + 1)) =
        (List.range ((get_segments key).length - 1)).map
          (fun i => base.dropLast ++ (get_segments key).take (i + 1)) := by
    rw [List.length_dropLast]
    apply List.map_congr_left
    intro i hi
    rw [List.mem_range] at hi
    have ht : (get_segments key).dropLast.take (i + 1) = (get_segments key).take (i + 1) := by
      rw [List.dropLast_eq_take, List.take_take]
      congr 1
      omega
    rw [ht]
  rw [hcoll] at h1 h2
  simp only [wdPut, specPut, hv]
  cases herr : (wdPutLoop server base.dropLast (get_segments key).dropLast).2.1 with
  | some e =>
    rw [herr] at h2
    rw [← h2, h1]
  | none =>
    rw [herr] at h2
    have htmp := h3 herr
    have hlast := List.getLast?_eq_getLast (get_segments key) hne
    simp only [← h2, hlast, htmp, h1, List.append_assoc,
      List.dropLast_append_getLast hne]

/-- Witness for `put_provisions_parents_then_puts` at the key `a/b` against an
all-success server. -/
theorem put_provisions_parents_then_puts_witness :
    validateSegments (get_segments ['a', '/', 'b'])
        = some (get_segments ['a', '/', 'b']) ∧
    2 ≤ (get_segments ['a', '/', 'b']).length ∧
      wdPut (fun _ _ => HttpOutcome.success) [['d'], []] ['a', '/', 'b'] [1] =
        specPut (fun _ _ => HttpOutcome.success) [['d'], []] ['a', '/', 'b'] [1] :=
  ⟨by decide, by decide,
    put_provisions_parents_then_puts (fun _ _ => HttpOutcome.success)
      [['d'], []] ['a', '/', 'b'] [1] (by decide) (by decide)⟩

/-- C8: splitting a key on `/` always yields at least one segment, so the
`segments.last()` call in `Webdav::put` never sees an empty vector and the
"Empty key" error branch is unreachable: `put` never fails with that error. -/
theorem put_never_fails_empty_key (server : Server) (base : List (List Char))
    (key : List Char) (body : List Nat) :
    get_segments key ≠ [] ∧ (wdPut server base key body).2 ≠ some WdErr.emptyKey := by
  refine ⟨get_segments_ne_nil key, ?_⟩
  cases hval : validateSegments (get_segments key) with
  | none => simp only [wdPut, hval]; simp
  | some segs =>
    have hseg : segs = get_segments key := validateSegments_some_eq _ _ hval
    have hne2 : segs ≠ [] := by
      rw [hseg]
      exact get_segments_ne_nil key
    simp only [wdPut, hval]
    cases herr : (wdPutLoop server base.dropLast segs.dropLast).2.1 with
    | some e =>
      have hno := wdPutLoop_err_ne_emptyKey server segs.dropLast base.dropLast
      rw [herr] at hno
      simpa using hno
    | none =>
      have hlast := List.getLast?_eq_getLast segs hne2
      simp only [hlast]
      cases server Verb.httpPut
          ((wdPutLoop server base.dropLast segs.dropLast).2.2 ++
            [segs.getLast hne2]) <;> simp

/-! ## Round-trip of the key encoding (C7) -/

theorem utf8Step1_rest_length (b : Nat) (bs : List Nat) (v : Nat) (rest : List Nat)
    (h : utf8Step1 b bs = some (v, rest)) : rest.length ≤ bs.length := by
  simp only [utf8Step1] at h
  repeat' split at h
  all_goals first
    | (simp only [Option.some.injEq, Prod.mk.injEq] at h
       obtain ⟨-, rfl⟩ := h
       simp only [List.length_cons]
       omega)
    | (simp only [Option.some.injEq, Prod.mk.injEq] at h
       obtain ⟨-, rfl⟩ := h
       omega)
    | exact Option.noConfusion h

theorem utf8DecodeAux_fuel :
    ∀ (f1 f2 : Nat) (l : List Nat), l.length ≤ f1 → l.length ≤ f2 →
      utf8DecodeAux f1 l = utf8DecodeAux f2 l := by
  intro f1
  induction f1 with
  | zero =>
    intro f2 l h1 _
    cases l with
    | nil => cases f2 <;> rfl
    | cons b bs => simp at h1
  | succ g ih =>
    intro f2 l h1 h2
    cases l with
    | nil => cases f2 <;> rfl
    | cons b bs =>
      cases f2 with
      | zero => simp at h2
      | succ g2 =>
        simp only [utf8DecodeAux]
        cases hs : utf8Step1 b bs with
        | none => rfl
        | some vr =>
          obtain ⟨v, rest⟩ := vr
          have hr := utf8Step1_rest_length b bs v rest hs
          simp only [List.length_cons] at h1 h2
          dsimp only []
          rw [ih g2 rest (by omega) (by omega)]

theorem utf8Decode_cons (b : Nat) (bs : List Nat) :
    utf8Decode (b :: bs) =
      match utf8Step1 b bs with
      | none => none
      | some (v, rest) => (utf8Decode rest).map (fun cs => Char.ofNat v :: cs) := by
  unfold utf8Decode
  simp only [List.length_cons, utf8DecodeAux]
  cases hs : utf8Step1 b bs with
  | none => rfl
  | some vr =>
    obtain ⟨v, rest⟩ := vr
    have hr := utf8Step1_rest_length b bs v rest hs
    dsimp only []
    rw [utf8DecodeAux_fuel bs.length rest.length rest hr (le_refl _)]

theorem utf8Decode_encode_append (c : Char) (bs : List Nat) :
    utf8Decode (utf8EncodeChar c ++ bs) = (utf8Decode bs).map (fun cs => c :: cs) := by
  have hv := char_toNat_lt c
  have hofNat : Char.ofNat c.toNat = c := Char.ofNat_toNat c
  simp only [utf8EncodeChar]
  split
  · rename_i h1
    simp only [List.cons_append, List.nil_append, utf8Decode_cons]
    have hs : utf8Step1 c.toNat bs = some (c.toNat, bs) := by
      simp only [utf8Step1]
      rw [if_pos h1]
    rw [hs]
    try dsimp only []
    simp only [hofNat]
  · rename_i h1
    split
    · rename_i h2
      have hc : isCont (0x80 + c.toNat % 0x40) = true := by
        simp only [isCont, Bool.and_eq_true, decide_eq_true_eq]
        omega
      simp only [List.cons_append, List.nil_append, utf8Decode_cons]
      have hs : utf8Step1 (0xC0 + c.toNat / 0x40) ((0x80 + c.toNat % 0x40) :: bs)
          = some (c.toNat, bs) := by
        simp only [utf8Step1]
        rw [if_neg (by omega), if_neg (by omega), if_pos (by omega)]
        try dsimp only []
        rw [if_pos hc]
        have harith : (0xC0 + c.toNat / 0x40 - 0xC0) * 0x40 + (0x80 + c.toNat % 0x40 - 0x80)
            = c.toNat := by omega
        rw [harith]
      rw [hs]
      try dsimp only []
      simp only [hofNat]
    · rename_i h2
      split
      · rename_i h3
        have hc1 : isCont (0x80 + c.toNat / 0x40 % 0x40) = true := by
          simp only [isCont, Bool.and_eq_true, decide_eq_true_eq]
          omega
        have hc2 : isCont (0x80 + c.toNat % 0x40) = true := by
          simp only [isCont, Bool.and_eq_true, decide_eq_true_eq]
          omega
        simp only [List.cons_append, List.nil_append, utf8Decode_cons]
        have hs : utf8Step1 (0xE0 + c.toNat / 0x1000)
            ((0x80 + c.toNat / 0x40 % 0x40) :: (0x80 + c.toNat % 0x40) :: bs)
            = some (c.toNat, bs) := by
          simp only [utf8Step1]
          rw [if_neg (by omega), if_neg (by omega), if_neg (by omega), if_pos (by omega)]
          try dsimp only []
          rw [if_pos (by rw [hc1, hc2]; rfl)]
          have harith : (0xE0 + c.toNat / 0x1000 - 0xE0) * 0x1000
              + (0x80 + c.toNat / 0x40 % 0x40 - 0x80) * 0x40
              + (0x80 + c.toNat % 0x40 - 0x80) = c.toNat := by omega
          rw [harith]
        rw [hs]
        try dsimp only []
        simp only [hofNat]
      · rename_i h3
        have hc1 : isCont (0x80 + c.toNat / 0x1000 % 0x40) = true := by
          simp only [isCont, Bool.and_eq_true, decide_eq_true_eq]
          omega
        have hc2 : isCont (0x80 + c.toNat / 0x40 % 0x40) = true := by
          simp only [isCont, Bool.and_eq_true, decide_eq_true_eq]
          omega
        have hc3 : isCont (0x80 + c.toNat % 0x40) = true := by
          simp only [isCont, Bool.and_eq_true, decide_eq_true_eq]
          omega
        simp only [List.cons_append, List.nil_append, utf8Decode_cons]
        have hs : utf8Step1 (0xF0 + c.toNat / 0x40000)
            ((0x80 + c.toNat / 0x1000 % 0x40) :: (0x80 + c.toNat / 0x40 % 0x40)
              :: (0x80 + c.toNat % 0x40) :: bs)
            = some (c.toNat, bs) := by
          simp only [utf8Step1]
          rw [if_neg (by omega), if_neg (by omega), if_neg (by omega), if_neg (by omega),
            if_pos (by omega)]
          try dsimp only []
          rw [if_pos (by rw [hc1, hc2, hc3]; rfl)]
          have harith : (0xF0 + c.toNat / 0x40000 - 0xF0) * 0x40000
              + (0x80 + c.toNat / 0x1000 % 0x40 - 0x80) * 0x1000
              + (0x80 + c.toNat / 0x40 % 0x40 - 0x80) * 0x40
              + (0x80 + c.toNat % 0x40 - 0x80) = c.toNat := by omega
          rw [harith]
        rw [hs]
        try dsimp only []
        simp only [hofNat]

theorem utf8Decode_flatMap_encode (l : List Char) :
    utf8Decode (l.flatMap utf8EncodeChar) = some l := by
  induction l with
  | nil => rfl
  | cons c cs ih =>
    rw [List.flatMap_cons, utf8Decode_encode_append, ih]
    rfl

theorem pctStep_some_length (rest : List Char) (b : Nat) (rest2 : List Char)
    (h : pctStep rest = some (b, rest2)) : rest2.length + 2 = rest.length := by
  simp only [pctStep] at h
  repeat' split at h
  all_goals first
    | (simp only [Option.some.injEq, Prod.mk.injEq] at h
       obtain ⟨-, rfl⟩ := h
       simp only [List.length_cons])
    | exact Option.noConfusion h

theorem pctDecodeAux_fuel :
    ∀ (f1 f2 : Nat) (l : List Char), l.length ≤ f1 → l.length ≤ f2 →
      pctDecodeAux f1 l = pctDecodeAux f2 l := by
  intro f1
  induction f1 with
  | zero =>
    intro f2 l h1 _
    cases l with
    | nil => cases f2 <;> rfl
    | cons c rest => simp at h1
  | succ g ih =>
    intro f2 l h1 h2
    cases l with
    | nil => cases f2 <;> rfl
    | cons c rest =>
      cases f2 with
      | zero => simp at h2
      | succ g2 =>
        simp only [pctDecodeAux]
        simp only [List.length_cons] at h1 h2
        by_cases hc : c = '%'
        · rw [if_pos hc, if_pos hc]
          cases hs : pctStep rest with
          | none => rfl
          | some br =>
            obtain ⟨b, rest2⟩ := br
            have hr := pctStep_some_length rest b rest2 hs
            try dsimp only []
            rw [ih g2 rest2 (by omega) (by omega)]
        · rw [if_neg hc, if_neg hc, ih g2 rest (by omega) (by omega)]

theorem pctDecodeBytes_cons (c : Char) (rest : List Char) :
    pctDecodeBytes (c :: rest) =
      if c = '%' then
        match pctStep rest with
        | some (b, rest2) => (pctDecodeBytes rest2).map (fun bs => b :: bs)
        | none => none
      else
        (pctDecodeBytes rest).map (fun bs => utf8EncodeChar c ++ bs) := by
  unfold pctDecodeBytes
  simp only [List.length_cons, pctDecodeAux]
  by_cases hc : c = '%'
  · rw [if_pos hc, if_pos hc]
    cases hs : pctStep rest with
    | none => rfl
    | some br =>
      obtain ⟨b, rest2⟩ := br
      have hr := pctStep_some_length rest b rest2 hs
      try dsimp only []
      rw [pctDecodeAux_fuel rest.length rest2.length rest2 (by omega) (le_refl _)]
  · rw [if_neg hc, if_neg hc, pctDecodeAux_fuel rest.length rest.length rest (le_refl _)
      (le_refl _)]

theorem hexVal_hexDigitChar (n : Nat) (h : n < 16) : hexVal (hexDigitChar n) = some n := by
  interval_cases n <;> decide

theorem pctStep_escape (b : Nat) (hb : b < 256) (rest : List Char) :
    pctStep (hexDigitChar (b / 16) :: hexDigitChar (b % 16) :: rest) = some (b, rest) := by
  simp only [pctStep, hexVal_hexDigitChar (b / 16) (by omega),
    hexVal_hexDigitChar (b % 16) (by omega)]
  have harith : b / 16 * 16 + b % 16 = b := by omega
  rw [harith]

theorem pctDecodeBytes_escape (b : Nat) (hb : b < 256) (rest : List Char) :
    pctDecodeBytes (pctEscapeByte b ++ rest) =
      (pctDecodeBytes rest).map (fun bs => b :: bs) := by
  simp only [pctEscapeByte, List.cons_append, List.nil_append]
  rw [pctDecodeBytes_cons, if_pos rfl, pctStep_escape b hb rest]

theorem pctDecodeBytes_raw (c : Char) (hc : ¬ c = '%') (rest : List Char) :
    pctDecodeBytes (c :: rest) =
      (pctDecodeBytes rest).map (fun bs => utf8EncodeChar c ++ bs) := by
  rw [pctDecodeBytes_cons, if_neg hc]

theorem pctDecodeBytes_escapes (bytes : List Nat) (hb : ∀ b ∈ bytes, b < 256)
    (rest : List Char) :
    pctDecodeBytes (bytes.flatMap pctEscapeByte ++ rest) =
      (pctDecodeBytes rest).map (fun bs => bytes ++ bs) := by
  induction bytes with
  | nil =>
    simp only [List.flatMap_nil, List.nil_append]
    cases pctDecodeBytes rest <;> rfl
  | cons b bytes ih =>
    rw [List.flatMap_cons, List.append_assoc,
      pctDecodeBytes_escape b (hb b (List.mem_cons_self b bytes)),
      ih (fun x hx => hb x (List.mem_cons_of_mem b hx))]
    cases pctDecodeBytes rest <;> rfl

/-- One character of the wire form of a key: structural slashes stay, all
other characters go through `pctEncodeChar`. -/
def wireChar (c : Char) : List Char :=
  if c = '/' then ['/'] else pctEncodeChar c

theorem joinSlash_nil_head (ss : List (List Char)) (h : ss ≠ []) :
    joinSlash ([] :: ss) = '/' :: joinSlash ss := by
  cases ss with
  | nil => exact absurd rfl h
  | cons s ss => rfl

theorem joinSlash_head_append (x a : List Char) (ss : List (List Char)) :
    joinSlash ((x ++ a) :: ss) = x ++ joinSlash (a :: ss) := by
  cases ss with
  | nil => simp [joinSlash]
  | cons s ss => simp [joinSlash, List.append_assoc]

theorem wireEncodeKey_eq (key : List Char) :
    wireEncodeKey key = key.flatMap wireChar := by
  unfold wireEncodeKey get_segments
  induction key with
  | nil => rfl
  | cons c cs ih =>
    simp only [splitOnSlash]
    by_cases hc : c = '/'
    · rw [if_pos hc, List.map_cons]
      have hmap : (splitOnSlash cs).map (fun s => s.flatMap pctEncodeChar) ≠ [] := by
        intro hcontra
        exact splitOnSlash_ne_nil cs (List.map_eq_nil_iff.mp hcontra)
      rw [show (([] : List Char).flatMap pctEncodeChar) = [] from rfl,
        joinSlash_nil_head _ hmap, ih, List.flatMap_cons]
      subst hc
      rfl
    · rw [if_neg hc]
      cases hsplit : splitOnSlash cs with
      | nil => exact absurd hsplit (splitOnSlash_ne_nil cs)
      | cons s ss =>
        rw [hsplit, List.map_cons] at ih
        try dsimp only []
        rw [List.map_cons,
          show ((c :: s).flatMap pctEncodeChar)
            = pctEncodeChar c ++ s.flatMap pctEncodeChar from List.flatMap_cons ..,
          joinSlash_head_append, ih, List.flatMap_cons]
        simp only [wireChar, if_neg hc]

theorem pctDecodeBytes_wire (key : List Char) :
    pctDecodeBytes (key.flatMap wireChar) = some (key.flatMap utf8EncodeChar) := by
  induction key with
  | nil => rfl
  | cons c cs ih =>
    rw [List.flatMap_cons, List.flatMap_cons]
    by_cases hslash : c = '/'
    · subst hslash
      rw [show wireChar '/' = ['/'] from rfl,
        show (['/'] : List Char) ++ cs.flatMap wireChar = '/' :: cs.flatMap wireChar from rfl,
        pctDecodeBytes_raw '/' (by decide) _, ih]
      rfl
    · by_cases henc : needsEncoding c = true
      · have hw : wireChar c = (utf8EncodeChar c).flatMap pctEscapeByte := by
          simp [wireChar, pctEncodeChar, hslash, henc]
        rw [hw, pctDecodeBytes_escapes (utf8EncodeChar c) (utf8EncodeChar_lt_256 c) _, ih]
        rfl
      · have hw : wireChar c = [c] := by
          simp [wireChar, pctEncodeChar, hslash, henc]
        have hpct : ¬ c = '%' := by
          intro hcontra
          subst hcontra
          exact henc (by decide)
        rw [hw,
          show ([c] : List Char) ++ cs.flatMap wireChar = c :: cs.flatMap wireChar from rfl,
          pctDecodeBytes_raw c hpct _, ih]
        rfl

/-- C7: for every key, including keys with spaces, non-ASCII and URI-reserved
characters, splitting on `/`, percent-encoding each segment independently and
rejoining with `/` (the wire encoding of `get_segments`), followed by the
percent-decoding done by `Webdav::list`, recovers exactly the original key:
decode after encode is the identity on keys. -/
theorem key_encoding_round_trip (key : List Char) :
    pctDecode (wireEncodeKey key) = some key := by
  unfold pctDecode
  rw [wireEncodeKey_eq, pctDecodeBytes_wire]
  exact utf8Decode_flatMap_encode key

example : pctDecode (wireEncodeKey ['a', '/', '$', ' ', '!', '€', '.', 't'])
    = some ['a', '/', '$', ' ', '!', '€', '.', 't'] := by decide

/-! ## `ask_user` (src/src/main.rs, lines 367-376) -/

/-- Whitespace as stripped by Rust's `str::trim` (the characters relevant to
console input). -/
def isWs (c : Char) : Bool :=
  c == ' ' || c == '\n' || c == '\t' || c == '\r'

/-- Trailing-whitespace strip. -/
def trimBack (l : List Char) : List Char :=
  (l.reverse.dropWhile isWs).reverse

/-- Rust's `str::trim`: strip whitespace from both ends. -/
def trimChars (l : List Char) : List Char :=
  trimBack (l.dropWhile isWs)

/-- `ask_user` from `src/src/main.rs`: `line` is the read buffer.  The loop
checks `accepted_values.contains(line.trim())` and otherwise calls
`read_line(&mut line)`, which APPENDS the next input line (with its trailing
newline) to the buffer without clearing it.  End of input (`read_line`
returning 0 bytes forever) makes the Rust loop spin without terminating, which
the model renders as `none`; on acceptance it returns the trimmed token and
the remaining input lines. -/
def ask_user (accepted : List (List Char)) :
    List Char → List (List Char) → Option (List Char × List (List Char))
  | line, inputs =>
    if accepted.contains (trimChars line) then some (trimChars line, inputs)
    else
      match inputs with
      | [] => none
      | i :: rest => ask_user accepted (line ++ i ++ ['\n']) rest

/-- The accepted tokens at the sync conflict prompt: u, o, s, e. -/
def acceptedUOSE : List (List Char) := [['u'], ['o'], ['s'], ['e']]

/-- The conflict prompt as called from `sync`: fresh empty buffer. -/
def askUserConsume (inputs : List (List Char)) :
    Option (List Char × List (List Char)) :=
  ask_user acceptedUOSE [] inputs

theorem trimBack_cons (c : Char) (t : List Char) (hc : isWs c = false) :
    trimBack (c :: t) = c :: trimBack t := by
  unfold trimBack
  rw [List.reverse_cons, List.dropWhile_append]
  cases hdw : (t.reverse.dropWhile isWs).isEmpty
  · simp only [Bool.false_eq_true, if_false, List.reverse_append]
    simp
  · simp only [if_true]
    rw [List.dropWhile_cons, hc]
    simp only [Bool.false_eq_true, if_false, List.reverse_cons]
    rw [List.isEmpty_iff] at hdw
    rw [hdw]
    rfl

theorem trimChars_of_dropWhile (line t : List Char) (h : line.dropWhile isWs = 'x' :: t) :
    trimChars line = 'x' :: trimBack t := by
  unfold trimChars
  rw [h, trimBack_cons _ _ (by decide)]

theorem not_accepted_of_head_x (l : List Char) :
    ¬ acceptedUOSE.contains ('x' :: l) = true := by
  intro hcontra
  have hmem : ('x' :: l) ∈ acceptedUOSE := List.elem_iff.mp hcontra
  simp only [acceptedUOSE, List.mem_cons, List.not_mem_nil, or_false] at hmem
  rcases hmem with h | h | h | h <;> (injection h with h1 _; exact absurd h1 (by decide))

theorem ask_user_poisoned :
    ∀ (inputs : List (List Char)) (line t : List Char),
      line.dropWhile isWs = 'x' :: t → ask_user acceptedUOSE line inputs = none := by
  intro inputs
  induction inputs with
  | nil =>
    intro line t h
    simp only [ask_user]
    rw [trimChars_of_dropWhile line t h, if_neg (not_accepted_of_head_x _)]
  | cons i rest ih =>
    intro line t h
    simp only [ask_user]
    rw [trimChars_of_dropWhile line t h, if_neg (not_accepted_of_head_x _)]
    apply ih (line ++ i ++ ['\n']) (t ++ i ++ ['\n'])
    rw [List.append_assoc, List.append_assoc, List.dropWhile_append, h]
    simp [List.append_assoc]

/-- Evaluation of the prompt loop on the failing input for C5: the line `x`
followed by the line `u`.  The claim requires the loop to terminate returning
`u`; the code's buffer accumulates to `x\nu\n`, whose trim `x\nu` never equals
an accepted token, so the loop never terminates (`none` in the model). -/
theorem ask_user_invalid_then_valid_diverges :
    askUserConsume [['x'], ['u']] = none ∧
      (∀ rest : List (List Char),
        ask_user acceptedUOSE (['x', '\n']) rest = none) := by
  constructor
  · rfl
  · intro rest
    exact ask_user_poisoned rest ['x', '\n'] ['\n'] rfl

/-! ## `Webdav::list` (src/src/webdav.rs, lines 115-214) -/

/-- Pull-parser events as consumed by `Webdav::list` (attributes, namespaces
and prefixes are ignored by the code; other event kinds fall into the
catch-all arm). -/
inductive XmlEvent
  | startElement (localName : List Char)
  | characters (content : List Char)
  | endElement (localName : List Char)
  | otherEvent
deriving DecidableEq, Repr

/-- One item yielded by the `xml::EventReader` iterator: an event, or a
parse error (malformed XML), which `event?` propagates. -/
inductive XmlItem
  | ok (e : XmlEvent)
  | malformed
deriving DecidableEq, Repr

/-- The `File` record produced by `list` (timestamps as abstract numbers). -/
structure WFile where
  key : List Char
  lastModified : Nat
deriving DecidableEq, Repr

/-- Failure modes of `Webdav::list`. -/
inductive ListErr
  | xmlError
  | panicked
  | dateParseError
  | missingHref
  | missingLastModified
  | iriError
  | pctError
deriving DecidableEq, Repr

/-- The streaming parse loop of `Webdav::list`, one state component per
mutable variable of the source (`value`, `in_response`, `href`,
`lastmodified`, `files`).  `pf` models `OffsetDateTime::parse(.., Rfc2822)`;
`resolve` models `IriRefBuf::new(href)?.resolved(base).relative_to(base)`
(the store-relative, still percent-encoded path).  As in the source, `href`
and `lastmodified` are NOT reset when a `response` element closes. -/
def wdListLoop (pf : List Char → Option Nat) (resolve : List Char → Option (List Char)) :
    List XmlItem → Option (List Char) → Bool → Option (List Char) → Option Nat →
    List WFile → Except ListErr (List WFile)
  | [], _, _, _, _, files => Except.ok files
  | item :: rest, value, inResponse, href, lastmod, files =>
    match item with
    | XmlItem.malformed => Except.error ListErr.xmlError
    | XmlItem.ok (XmlEvent.startElement n) =>
      if n = "href".toList ∨ n = "getlastmodified".toList then
        wdListLoop pf resolve rest (if inResponse then some [] else value)
          inResponse href lastmod files
      else if n = "response".toList then
        wdListLoop pf resolve rest value true href lastmod files
      else
        wdListLoop pf resolve rest value inResponse href lastmod files
    | XmlItem.ok (XmlEvent.characters content) =>
      wdListLoop pf resolve rest (value.map (· ++ content)) inResponse href lastmod files
    | XmlItem.ok (XmlEvent.endElement n) =>
      if inResponse then
        if n = "href".toList then
          wdListLoop pf resolve rest none inResponse value lastmod files
        else if n = "getlastmodified".toList then
          match value with
          | none => Except.error ListErr.panicked
          | some v =>
            match pf v with
            | none => Except.error ListErr.dateParseError
            | some t => wdListLoop pf resolve rest none inResponse href (some t) files
        else if n = "response".toList then
          match href with
          | none => Except.error ListErr.missingHref
          | some h =>
            match lastmod with
            | none => Except.error ListErr.missingLastModified
            | some t =>
              match resolve h with
              | none => Except.error ListErr.iriError
              | some thing =>
                match pctDecode thing with
                | none => Except.error ListErr.pctError
                | some key =>
                  wdListLoop pf resolve rest value false href lastmod
                    (if key.getLast? = some '/' ∨ key = [] then files
                     else files ++ [⟨key, t⟩])
        else
          wdListLoop pf resolve rest value inResponse href lastmod files
      else
        wdListLoop pf resolve rest value inResponse href lastmod files
    | XmlItem.ok XmlEvent.otherEvent =>
      wdListLoop pf resolve rest value inResponse href lastmod files

/-- `Webdav::list` body over an abstract event stream: all state starts
empty. -/
def wdList (pf : List Char → Option Nat) (resolve : List Char → Option (List Char))
    (items : List XmlItem) : Except ListErr (List WFile) :=
  wdListLoop pf resolve items none false none none []

/-- A multistatus stream with two response entries; the second one carries no
`href` element at all. -/
def xmlStreamMissingHref : List XmlItem :=
  [XmlItem.ok (XmlEvent.startElement "response".toList),
   XmlItem.ok (XmlEvent.startElement "href".toList),
   XmlItem.ok (XmlEvent.characters "a.txt".toList),
   XmlItem.ok (XmlEvent.endElement "href".toList),
   XmlItem.ok (XmlEvent.startElement "getlastmodified".toList),
   XmlItem.ok (XmlEvent.characters "d1".toList),
   XmlItem.ok (XmlEvent.endElement "getlastmodified".toList),
   XmlItem.ok (XmlEvent.endElement "response".toList),
   XmlItem.ok (XmlEvent.startElement "response".toList),
   XmlItem.ok (XmlEvent.startElement "getlastmodified".toList),
   XmlItem.ok (XmlEvent.characters "d2".toList),
   XmlItem.ok (XmlEvent.endElement "getlastmodified".toList),
   XmlItem.ok (XmlEvent.endElement "response".toList)]

/-- Evaluation of `Webdav::list` on the C2 failing input: the second response
entry lacks an href, yet the call SUCCEEDS and returns two `File` records,
the second silently reusing the first entry's href as its key — because the
parser never resets `href` (or `lastmodified`) between response entries.  The
claim (and the code's own error message for a missing href) requires the
entire call to fail with no results here. -/
theorem list_missing_href_reuses_previous_entry :
    wdList (fun v => if v = "d1".toList then some 1 else some 2) some
        xmlStreamMissingHref
      = Except.ok [⟨"a.txt".toList, 1⟩, ⟨"a.txt".toList, 2⟩] := by
  rfl

/-! ## Sync engine (src/src/main.rs, lines 264-365) -/

/-- Byte contents of files and remote objects. -/
abbrev Bytes := List Nat

/-- A local filesystem path, as a list of path segments. -/
abbrev LPath := List (List Char)

/-- One entry of the S3 listing as consumed by `sync`: the key and the result
of `OffsetDateTime::parse(&file.last_modified, &Rfc3339)` on its timestamp
header (`none` models a parse failure, which aborts the pass). -/
structure SFile where
  key : List Char
  lastModified : Option Nat
deriving DecidableEq, Repr

/-- The local file tree: existing directories, and files with their content
and modification time. -/
structure LocalFs where
  dirs : List LPath
  files : List (LPath × Bytes × Nat)
deriving DecidableEq, Repr

/-- Content and mtime of the FILE at a path, if one exists (the reads made in
the local-present branch); see `localExists` for the `exists()` test itself. -/
def lookupFile (fs : LocalFs) (p : LPath) : Option (Bytes × Nat) :=
  (fs.files.find? (fun e => e.1 == p)).map (fun e => e.2)

/-- `Path::exists()` at `local`: true when a file OR a directory occupies the
path — a directory there also sends the source into the local-present branch,
where `read_to_string` then fails. -/
def localExists (fs : LocalFs) (p : LPath) : Bool :=
  (lookupFile fs p).isSome || fs.dirs.contains p

/-- Whether the parent directory of a path exists. -/
def parentOk (fs : LocalFs) (p : LPath) : Bool :=
  fs.dirs.contains p.dropLast

/-- Create or overwrite a file entry. -/
def upsertFile (files : List (LPath × Bytes × Nat)) (p : LPath) (v : Bytes × Nat) :
    List (LPath × Bytes × Nat) :=
  if files.any (fun e => e.1 == p) then
    files.map (fun e => if e.1 == p then (p, v) else e)
  else files ++ [(p, v)]

/-- `replace_local_file` from `src/src/main.rs` (lines 360-365):
`std::fs::write` creates or truncates the file but FAILS when the parent
directory does not exist — it creates no intermediate directories; on success
`set_file_times` sets the modification time to the remote value. -/
def replace_local_file (fs : LocalFs) (p : LPath) (content : Bytes) (mtime : Nat) :
    Option LocalFs :=
  if parentOk fs p then
    some { fs with files := upsertFile fs.files p (content, mtime) }
  else none

/-- Observable actions of the sync engine.  The S3 client also offers
`delete_object` and the filesystem offers removal; the corresponding event
constructors exist so that their absence from every sync trace is a
meaningful statement. -/
inductive SEvent
  | getRemote (key : List Char)
  | prompt (key : List Char)
  | putRemote (key : List Char) (body : Bytes)
  | writeLocal (path : LPath) (content : Bytes) (mtime : Nat)
  | deleteRemote (key : List Char)
  | deleteLocal (path : LPath)
deriving DecidableEq, Repr

/-- Failure modes of a sync pass. -/
inductive SyncErr
  | dateParseFailed
  | getFailed
  | localReadFailed
  | remoteNotText
  | stdinClosed
  | unknownAction
  | uploadFailed
  | writeFailed
deriving DecidableEq, Repr

/-- Per-file control outcome: continue, stop the pass (`e`), or abort with an
error. -/
inductive SCtl
  | next
  | stop
  | fail (e : SyncErr)
deriving DecidableEq, Repr

/-- `root_dir.join(Path::new(&file.key))`: the key's slash-separated segments
appended to the root directory segments. -/
def localPathOf (root : LPath) (key : List Char) : LPath :=
  root ++ splitOnSlash key

/-- Processing of one listed remote file by `sync` (src/src/main.rs, lines
278-334).  `getObj` models `bucket.get_object` (`none` aborts), `putOk`
models the status check of `upload_local_file`.  The branch is chosen by
`local.exists()` (`localExists`, true for files and directories alike);
`read_to_string` fails when the path holds a directory or non-UTF-8 bytes
(both `SyncErr.localReadFailed`), and `String::from_utf8` on the remote body
is modelled by `utf8Decode`; the local modification time is read (bound here
as `_localMtime`) but used only for a debug log; diffy's
`create_patch(..).hunks().is_empty()` holds exactly when the two texts are
equal.  Returns the events issued, the resulting local tree, the remaining
stdin lines and the control outcome. -/
def syncFileStep (getObj : List Char → Option Bytes) (putOk : List Char → Bool)
    (root : LPath) (fs : LocalFs) (stdin : List (List Char)) (file : SFile) :
    List SEvent × LocalFs × List (List Char) × SCtl :=
  match file.lastModified with
  | none => ([], fs, stdin, SCtl.fail SyncErr.dateParseFailed)
  | some lm =>
    let localPath := localPathOf root file.key
    let gev := SEvent.getRemote file.key
    match getObj file.key with
    | none => ([gev], fs, stdin, SCtl.fail SyncErr.getFailed)
    | some body =>
      if localExists fs localPath then
        match lookupFile fs localPath with
        | none =>
          ([gev], fs, stdin, SCtl.fail SyncErr.localReadFailed)
        | some (localBytes, _localMtime) =>
        match utf8Decode localBytes with
        | none => ([gev], fs, stdin, SCtl.fail SyncErr.localReadFailed)
        | some localText =>
          match utf8Decode body with
          | none => ([gev], fs, stdin, SCtl.fail SyncErr.remoteNotText)
          | some remoteText =>
            if localText = remoteText then
              ([gev], fs, stdin, SCtl.next)
            else
              let pev := SEvent.prompt file.key
              match askUserConsume stdin with
              | none => ([gev, pev], fs, stdin, SCtl.fail SyncErr.stdinClosed)
              | some (resp, stdin2) =>
                if resp = "u".toList then
                  let uev := SEvent.putRemote file.key localBytes
                  if putOk file.key then ([gev, pev, uev], fs, stdin2, SCtl.next)
                  else ([gev, pev, uev], fs, stdin2, SCtl.fail SyncErr.uploadFailed)
                else if resp = "o".toList then
                  match replace_local_file fs localPath body lm with
                  | some fs2 =>
                    ([gev, pev, SEvent.writeLocal localPath body lm], fs2, stdin2, SCtl.next)
                  | none => ([gev, pev], fs, stdin2, SCtl.fail SyncErr.writeFailed)
                else if resp = "s".toList then ([gev, pev], fs, stdin2, SCtl.next)
                else if resp = "e".toList then ([gev, pev], fs, stdin2, SCtl.stop)
                else ([gev, pev], fs, stdin2, SCtl.fail SyncErr.unknownAction)
      else
        match replace_local_file fs localPath body lm with
        | some fs2 => ([gev, SEvent.writeLocal localPath body lm], fs2, stdin, SCtl.next)
        | none => ([gev], fs, stdin, SCtl.fail SyncErr.writeFailed)

/-- A full sync pass over the listing, in listing order: `e` stops cleanly,
an error aborts, everything else continues with the updated state. -/
def syncRun (getObj : List Char → Option Bytes) (putOk : List Char → Bool) (root : LPath) :
    List SFile → LocalFs → List (List Char) → List SEvent × LocalFs × Option SyncErr
  | [], fs, _ => ([], fs, none)
  | f :: rest, fs, stdin =>
    let r := syncFileStep getObj putOk root fs stdin f
    match r.2.2.2 with
    | SCtl.next =>
      let r2 := syncRun getObj putOk root rest r.2.1 r.2.2.1
      (r.1 ++ r2.1, r2.2.1, r2.2.2)
    | SCtl.stop => (r.1, r.2.1, none)
    | SCtl.fail e => (r.1, r.2.1, some e)

theorem find?_upsert (files : List (LPath × Bytes × Nat)) (p : LPath) (v : Bytes × Nat) :
    (upsertFile files p v).find? (fun e => e.1 == p) = some (p, v) := by
  unfold upsertFile
  by_cases hany : files.any (fun e => e.1 == p)
  · rw [if_pos hany]
    induction files with
    | nil => simp at hany
    | cons e rest ih =>
      simp only [List.map_cons, List.find?_cons]
      by_cases he : e.1 == p
      · rw [if_pos he]
        simp
      · rw [if_neg he]
        simp only [he, Bool.false_eq_true, if_false]
        have hrest : rest.any (fun e => e.1 == p) := by
          simp only [List.any_cons, he, Bool.false_or] at hany
          exact hany
        simpa [he] using ih hrest
  · rw [if_neg hany]
    rw [List.find?_append]
    have hnone : files.find? (fun e => e.1 == p) = none := by
      rw [List.find?_eq_none]
      intro x hx
      intro hcontra
      exact hany (List.any_eq_true.mpr ⟨x, hx, hcontra⟩)
    rw [hnone]
    simp

theorem lookupFile_upsert (fs : LocalFs) (p : LPath) (v : Bytes × Nat) :
    lookupFile { fs with files := upsertFile fs.files p v } p = some v := by
  unfold lookupFile
  rw [find?_upsert]
  rfl

/-- Counterexample for C3 as stated: remote key `a/b`, no local file and no
local directory `a`.  The claim says sync writes the bytes, creating the
missing intermediate directory; the code's `std::fs::write` fails instead —
the step aborts with a write error, the tree is unchanged and no directory is
created. -/
theorem sync_missing_parent_dir_fails :
    syncFileStep (fun _ => some [104]) (fun _ => true) [] ⟨[], []⟩ []
        ⟨['a', '/', 'b'], some 7⟩
      = ([SEvent.getRemote ['a', '/', 'b']], ⟨[], []⟩, [], SCtl.fail SyncErr.writeFailed) := by
  rfl

/-- C3 as amended: for a remote file at whose local path `root_dir/key`
nothing exists (`Path::exists()` is false — neither a file nor a directory),
and whose parent directory DOES already exist locally, the sync step writes
the remote bytes to `root_dir/key` and sets the local modification time to
the remote `last_modified` value; no other action is taken and the pass
continues.  (The original claim's "creating any missing intermediate local
directories" does not hold — see `sync_missing_parent_dir_fails`; and a
DIRECTORY at `root_dir/key` sends the source into the conflict branch where
`read_to_string` fails, so the hypothesis must be `exists() = false`, not
merely "no file".) -/
theorem sync_downloads_missing_local (getObj : List Char → Option Bytes)
    (putOk : List Char → Bool) (root : LPath) (fs : LocalFs)
    (stdin : List (List Char)) (file : SFile) (lm : Nat) (body : Bytes)
    (hlm : file.lastModified = some lm)
    (hget : getObj file.key = some body)
    (hmiss : localExists fs (localPathOf root file.key) = false)
    (hparent : parentOk fs (localPathOf root file.key) = true) :
    syncFileStep getObj putOk root fs stdin file =
      ([SEvent.getRemote file.key,
        SEvent.writeLocal (localPathOf root file.key) body lm],
        { fs with files := upsertFile fs.files (localPathOf root file.key) (body, lm) },
        stdin, SCtl.next) ∧
    lookupFile
        { fs with files := upsertFile fs.files (localPathOf root file.key) (body, lm) }
        (localPathOf root file.key) = some (body, lm) := by
  constructor
  · unfold syncFileStep
    rw [hlm]
    simp only [hget, hmiss, Bool.false_eq_true, if_false]
    unfold replace_local_file
    rw [if_pos hparent]
  · exact lookupFile_upsert fs (localPathOf root file.key) (body, lm)

/-- A DIRECTORY at `root_dir/key` (remote key `a`, local directory `h/a`):
`Path::exists()` is true, so the source enters the local-present branch and
aborts when `read_to_string` fails on the directory — nothing is written. -/
theorem sync_local_directory_conflict_aborts :
    syncFileStep (fun _ => some [104]) (fun _ => true) [['h']]
        ⟨[[['h']], [['h'], ['a']]], []⟩ [] ⟨['a'], some 3⟩
      = ([SEvent.getRemote ['a']], ⟨[[['h']], [['h'], ['a']]], []⟩, [],
          SCtl.fail SyncErr.localReadFailed) := by
  rfl

/-- Witness for `sync_downloads_missing_local`: key `a`, root `h`, directory
`h` present, nothing at `h/a`. -/
theorem sync_downloads_missing_local_witness :
    syncFileStep (fun _ => some [104, 105]) (fun _ => true) [['h']]
        ⟨[[['h']]], []⟩ [] ⟨['a'], some 3⟩ =
      ([SEvent.getRemote ['a'], SEvent.writeLocal [['h'], ['a']] [104, 105] 3],
        ⟨[[['h']]], [([['h'], ['a']], [104, 105], 3)]⟩, [], SCtl.next) ∧
    lookupFile ⟨[[['h']]], [([['h'], ['a']], [104, 105], 3)]⟩ [['h'], ['a']]
      = some ([104, 105], 3) :=
  sync_downloads_missing_local (fun _ => some [104, 105]) (fun _ => true) [['h']]
    ⟨[[['h']]], []⟩ [] ⟨['a'], some 3⟩ 3 [104, 105] rfl rfl (by decide) rfl

/-- C10: once the listed timestamp parses, the very first action of the
per-file sync step is fetching the remote object body — before any check of
whether a local copy exists or is identical; and a file whose local copy is
byte-identical text still has its full remote content downloaded, with no
write and no prompt issued. -/
theorem sync_fetches_every_listed_file (getObj : List Char → Option Bytes)
    (putOk : List Char → Bool) (root : LPath) (fs : LocalFs)
    (stdin : List (List Char)) (file : SFile) (lm : Nat)
    (hlm : file.lastModified = some lm) :
    (syncFileStep getObj putOk root fs stdin file).1.head?
        = some (SEvent.getRemote file.key) ∧
    (∀ body b t txt, getObj file.key = some body →
      lookupFile fs (localPathOf root file.key) = some (b, t) →
      utf8Decode b = some txt → utf8Decode body = some txt →
      syncFileStep getObj putOk root fs stdin file
        = ([SEvent.getRemote file.key], fs, stdin, SCtl.next)) := by
  constructor
  · simp only [syncFileStep, hlm]
    cases hget : getObj file.key with
    | none => rfl
    | some body =>
      try dsimp only []
      by_cases hpresent : localExists fs (localPathOf root file.key) = true
      · rw [if_pos hpresent]
        cases hlook : lookupFile fs (localPathOf root file.key) with
        | none => rfl
        | some bt =>
          obtain ⟨b, t⟩ := bt
          try dsimp only []
          cases utf8Decode b with
          | none => rfl
          | some localText =>
            try dsimp only []
            cases utf8Decode body with
            | none => rfl
            | some remoteText =>
              try dsimp only []
              by_cases htext : localText = remoteText
              · rw [if_pos htext]
                rfl
              · rw [if_neg htext]
                cases askUserConsume stdin with
                | none => rfl
                | some rs =>
                  obtain ⟨resp, stdin2⟩ := rs
                  try dsimp only []
                  by_cases hu : resp = "u".toList
                  · rw [if_pos hu]
                    cases putOk file.key <;> rfl
                  · rw [if_neg hu]
                    by_cases ho : resp = "o".toList
                    · rw [if_pos ho]
                      cases replace_local_file fs (localPathOf root file.key) body lm <;>
                        rfl
                    · rw [if_neg ho]
                      by_cases hsk : resp = "s".toList
                      · rw [if_pos hsk]
                        rfl
                      · rw [if_neg hsk]
                        by_cases hex : resp = "e".toList
                        · rw [if_pos hex]
                          rfl
                        · rw [if_neg hex]
                          rfl
      · rw [if_neg hpresent]
        cases replace_local_file fs (localPathOf root file.key) body lm <;> rfl
  · intro body b t txt hget hlook hloc hrem
    have hpresent : localExists fs (localPathOf root file.key) = true := by
      simp [localExists, hlook]
    simp only [syncFileStep, hlm, hget, hpresent, hlook, hloc, hrem]
    simp only [if_true]

/-- Witness for `sync_fetches_every_listed_file`: identical local and remote
content `h` for key `a`; the step's only event is the fetch. -/
theorem sync_fetches_every_listed_file_witness :
    (syncFileStep (fun _ => some [104]) (fun _ => true) [] ⟨[[]], [([['a']], [104], 9)]⟩ []
        ⟨['a'], some 3⟩).1.head? = some (SEvent.getRemote ['a']) ∧
    syncFileStep (fun _ => some [104]) (fun _ => true) [] ⟨[[]], [([['a']], [104], 9)]⟩ []
        ⟨['a'], some 3⟩
      = ([SEvent.getRemote ['a']], ⟨[[]], [([['a']], [104], 9)]⟩, [], SCtl.next) :=
  ⟨(sync_fetches_every_listed_file (fun _ => some [104]) (fun _ => true) []
      ⟨[[]], [([['a']], [104], 9)]⟩ [] ⟨['a'], some 3⟩ 3 rfl).1,
    (sync_fetches_every_listed_file (fun _ => some [104]) (fun _ => true) []
      ⟨[[]], [([['a']], [104], 9)]⟩ [] ⟨['a'], some 3⟩ 3 rfl).2
      [104] [104] 9 ['h'] rfl rfl rfl rfl⟩

/-- Changes only the modification time of the file at `p`, leaving content
and directories untouched. -/
def setMtime (fs : LocalFs) (p : LPath) (t2 : Nat) : LocalFs :=
  { fs with files := fs.files.map (fun e => if e.1 == p then (e.1, e.2.1, t2) else e) }

theorem find?_setMtime (l : List (LPath × Bytes × Nat)) (p : LPath) (t2 : Nat)
    (b : Bytes) (t : Nat)
    (h : (l.find? (fun e => e.1 == p)).map (fun e => e.2) = some (b, t)) :
    ((l.map (fun e => if e.1 == p then (e.1, e.2.1, t2) else e)).find?
        (fun e => e.1 == p)).map (fun e => e.2) = some (b, t2) := by
  induction l with
  | nil => simp at h
  | cons e rest ih =>
    simp only [List.map_cons]
    by_cases he : (e.1 == p) = true
    · rw [if_pos he]
      simp only [List.find?_cons, he, Option.map_some] at h ⊢
      injection h with h2
      rw [show e.2.1 = b from congrArg Prod.fst h2]
      rfl
    · have he2 : (e.1 == p) = false := by simpa using he
      rw [if_neg he]
      simp only [List.find?_cons, he2] at h ⊢
      exact ih h

theorem lookupFile_setMtime (fs : LocalFs) (p : LPath) (t2 : Nat) (b : Bytes) (t : Nat)
    (h : lookupFile fs p = some (b, t)) :
    lookupFile (setMtime fs p t2) p = some (b, t2) :=
  find?_setMtime fs.files p t2 b t h

/-- C9: when a local file exists for a remote key, the per-file sync step's
observable behaviour — the events it issues (fetch, prompt, upload, write)
and its control outcome — depends only on the byte contents of the local and
remote files, not on the local modification time: changing only that
modification time leaves the issued events, the consumed input and the
outcome unchanged.  (The local mtime is read but used only for a debug log.) -/
theorem sync_classification_ignores_local_mtime (getObj : List Char → Option Bytes)
    (putOk : List Char → Bool) (root : LPath) (fs : LocalFs)
    (stdin : List (List Char)) (file : SFile) (b : Bytes) (t t2 : Nat)
    (h : lookupFile fs (localPathOf root file.key) = some (b, t)) :
    (syncFileStep getObj putOk root fs stdin file).1
        = (syncFileStep getObj putOk root
            (setMtime fs (localPathOf root file.key) t2) stdin file).1 ∧
    (syncFileStep getObj putOk root fs stdin file).2.2
        = (syncFileStep getObj putOk root
            (setMtime fs (localPathOf root file.key) t2) stdin file).2.2 := by
  have h2 := lookupFile_setMtime fs (localPathOf root file.key) t2 b t h
  have hex1 : localExists fs (localPathOf root file.key) = true := by
    simp [localExists, h]
  have hex2 : localExists (setMtime fs (localPathOf root file.key) t2)
      (localPathOf root file.key) = true := by
    simp [localExists, h2]
  have key : ((syncFileStep getObj putOk root fs stdin file).1,
      (syncFileStep getObj putOk root fs stdin file).2.2)
      = ((syncFileStep getObj putOk root
            (setMtime fs (localPathOf root file.key) t2) stdin file).1,
        (syncFileStep getObj putOk root
            (setMtime fs (localPathOf root file.key) t2) stdin file).2.2) := by
    cases hlm : file.lastModified with
    | none => simp only [syncFileStep, hlm]
    | some lm =>
      simp only [syncFileStep, hlm, hex1, hex2, if_true, h, h2]
      cases hget : getObj file.key with
      | none => rfl
      | some body =>
        try dsimp only []
        cases utf8Decode b with
        | none => rfl
        | some localText =>
          try dsimp only []
          cases utf8Decode body with
          | none => rfl
          | some remoteText =>
            try dsimp only []
            by_cases htext : localText = remoteText
            · rw [if_pos htext, if_pos htext]
            · rw [if_neg htext, if_neg htext]
              cases askUserConsume stdin with
              | none => rfl
              | some rs =>
                obtain ⟨resp, stdin2⟩ := rs
                try dsimp only []
                by_cases hu : resp = "u".toList
                · rw [if_pos hu, if_pos hu]
                  cases putOk file.key <;> rfl
                · rw [if_neg hu, if_neg hu]
                  by_cases ho : resp = "o".toList
                  · rw [if_pos ho, if_pos ho]
                    simp only [replace_local_file, parentOk, setMtime]
                    by_cases hc : (localPathOf root file.key).dropLast ∈ fs.dirs <;>
                      simp [hc]
                  · rw [if_neg ho, if_neg ho]
                    by_cases hsk : resp = "s".toList
                    · rw [if_pos hsk, if_pos hsk]
                    · rw [if_neg hsk, if_neg hsk]
                      by_cases hex : resp = "e".toList
                      · rw [if_pos hex, if_pos hex]
                      · rw [if_neg hex, if_neg hex]
  exact ⟨congrArg (fun q : List SEvent × (List (List Char) × SCtl) => q.1) key,
    congrArg (fun q : List SEvent × (List (List Char) × SCtl) => q.2) key⟩

/-- Witness for `sync_classification_ignores_local_mtime`: same content, local
mtime changed from 5 to 9. -/
theorem sync_classification_ignores_local_mtime_witness :
    (syncFileStep (fun _ => some [104]) (fun _ => true) [] ⟨[[]], [([['a']], [104], 5)]⟩ []
        ⟨['a'], some 3⟩).1
      = (syncFileStep (fun _ => some [104]) (fun _ => true) []
          (setMtime ⟨[[]], [([['a']], [104], 5)]⟩ (localPathOf [] ['a']) 9) []
          ⟨['a'], some 3⟩).1 ∧
    (syncFileStep (fun _ => some [104]) (fun _ => true) [] ⟨[[]], [([['a']], [104], 5)]⟩ []
        ⟨['a'], some 3⟩).2.2
      = (syncFileStep (fun _ => some [104]) (fun _ => true) []
          (setMtime ⟨[[]], [([['a']], [104], 5)]⟩ (localPathOf [] ['a']) 9) []
          ⟨['a'], some 3⟩).2.2 :=
  sync_classification_ignores_local_mtime (fun _ => some [104]) (fun _ => true) []
    ⟨[[]], [([['a']], [104], 5)]⟩ [] ⟨['a'], some 3⟩ [104] 5 9 rfl

/-- The event shapes one per-file sync step can produce: a fetch or prompt of
that file's key, an upload to that file's key, or a local write at
`root_dir/key`. -/
def evFrom (root : LPath) (f : SFile) (ev : SEvent) : Prop :=
  ev = SEvent.getRemote f.key ∨ ev = SEvent.prompt f.key ∨
    (∃ b, ev = SEvent.putRemote f.key b) ∨
    (∃ c t, ev = SEvent.writeLocal (localPathOf root f.key) c t)

theorem syncFileStep_events (getObj : List Char → Option Bytes) (putOk : List Char → Bool)
    (root : LPath) (fs : LocalFs) (stdin : List (List Char)) (f : SFile) :
    ∀ ev ∈ (syncFileStep getObj putOk root fs stdin f).1, evFrom root f ev := by
  intro ev hev
  unfold syncFileStep at hev
  repeat' split at hev
  all_goals
    simp only [List.mem_cons, List.not_mem_nil, or_false] at hev
  all_goals
    unfold evFrom
  all_goals aesop

theorem evFrom_props (root : LPath) (files : List SFile) (f : SFile) (ev : SEvent)
    (hf : f ∈ files) (h : evFrom root f ev) :
    (∀ k, ev ≠ SEvent.deleteRemote k) ∧ (∀ p, ev ≠ SEvent.deleteLocal p) ∧
    (∀ k b, ev = SEvent.putRemote k b → k ∈ files.map SFile.key) ∧
    (∀ p c t, ev = SEvent.writeLocal p c t →
      ∃ g, g ∈ files ∧ p = localPathOf root g.key) := by
  rcases h with rfl | rfl | ⟨b, rfl⟩ | ⟨c, t, rfl⟩ <;> refine ⟨?_, ?_, ?_, ?_⟩ <;> intros <;>
    aesop

/-- C6: over an entire sync pass, whatever the listing, the local tree, the
remote contents and the operator's decisions, the engine never issues a
remote deletion and never issues a local deletion; every remote put targets a
key present in the advertised listing, and every local write lands at
`root_dir/key` for a listed key. -/
theorem sync_strictly_additive (getObj : List Char → Option Bytes)
    (putOk : List Char → Bool) (root : LPath) (files : List SFile) (fs : LocalFs)
    (stdin : List (List Char)) :
    ∀ ev ∈ (syncRun getObj putOk root files fs stdin).1,
      (∀ k, ev ≠ SEvent.deleteRemote k) ∧
      (∀ p, ev ≠ SEvent.deleteLocal p) ∧
      (∀ k b, ev = SEvent.putRemote k b → k ∈ files.map SFile.key) ∧
      (∀ p c t, ev = SEvent.writeLocal p c t →
        ∃ f, f ∈ files ∧ p = localPathOf root f.key) := by
  induction files generalizing fs stdin with
  | nil =>
    intro ev hev
    simp [syncRun] at hev
  | cons f rest ih =>
    intro ev hev
    simp only [syncRun] at hev
    split at hev
    · simp only [List.mem_append] at hev
      rcases hev with h1 | h2
      · exact evFrom_props root (f :: rest) f ev (List.mem_cons_self f rest)
          (syncFileStep_events getObj putOk root fs stdin f ev h1)
      · obtain ⟨c1, c2, c3, c4⟩ := ih _ _ ev h2
        refine ⟨c1, c2, ?_, ?_⟩
        · intro k b heq
          have := c3 k b heq
          simp only [List.map_cons, List.mem_cons]
          exact Or.inr (by simpa using this)
        · intro p c t heq
          obtain ⟨g, hg, hp⟩ := c4 p c t heq
          exact ⟨g, List.mem_cons_of_mem f hg, hp⟩
    · exact evFrom_props root (f :: rest) f ev (List.mem_cons_self f rest)
        (syncFileStep_events getObj putOk root fs stdin f ev hev)
    · exact evFrom_props root (f :: rest) f ev (List.mem_cons_self f rest)
        (syncFileStep_events getObj putOk root fs stdin f ev hev)

/-- Witness for `sync_strictly_additive`, at the local-write event of a
one-file run. -/
theorem sync_strictly_additive_witness :
    (∀ k, SEvent.writeLocal [['h'], ['a']] [104, 105] 3 ≠ SEvent.deleteRemote k) ∧
    (∀ p, SEvent.writeLocal [['h'], ['a']] [104, 105] 3 ≠ SEvent.deleteLocal p) ∧
    (∀ k b, SEvent.writeLocal [['h'], ['a']] [104, 105] 3 = SEvent.putRemote k b →
      k ∈ [SFile.mk ['a'] (some 3)].map SFile.key) ∧
    (∀ p c t, SEvent.writeLocal [['h'], ['a']] [104, 105] 3 = SEvent.writeLocal p c t →
      ∃ f, f ∈ [SFile.mk ['a'] (some 3)] ∧ p = localPathOf [['h']] f.key) :=
  sync_strictly_additive (fun _ => some [104, 105]) (fun _ => true) [['h']]
    [SFile.mk ['a'] (some 3)] ⟨[[['h']]], []⟩ []
    (SEvent.writeLocal [['h'], ['a']] [104, 105] 3) (by decide)

/-! ## `track` (src/src/main.rs, lines 200-262) -/

/-- An upload performed by the track flow: local path, remote key. -/
inductive TrackEvent
  | upload (path : LPath) (key : List Char)
deriving DecidableEq, Repr

/-- Failure modes of `track`. -/
inductive TrackErr
  | targetWithDirSource
  | outsideRoot
  | stripFailed
  | uploadFailed
deriving DecidableEq, Repr

/-- Insertion into the `HashSet` of gathered files, modelled as an
insertion-ordered deduplicated list (the set's iteration order is not
otherwise observable through the claims). -/
def insertDedup (acc : List LPath) (p : LPath) : List LPath :=
  if acc.contains p then acc else acc ++ [p]

/-- The source-gathering loop of `track` when no explicit target is given:
every (absolutized) source must lie under the root path, directories are
expanded by `visit_dirs` (modelled by `expand`), plain files are inserted
directly. -/
def trackGather (isDir : LPath → Bool) (expand : LPath → List LPath) (root : LPath) :
    List LPath → List LPath → Except TrackErr (List LPath)
  | [], acc => Except.ok acc
  | src :: rest, acc =>
    if root.isPrefixOf src then
      if isDir src then
        trackGather isDir expand root rest ((expand src).foldl insertDedup acc)
      else
        trackGather isDir expand root rest (insertDedup acc src)
    else Except.error TrackErr.outsideRoot

/-- `file.strip_prefix(&root_path)` followed by `to_str`: the root-relative
segments joined with `/`. -/
def keyOfPath (root : LPath) (p : LPath) : Except TrackErr (List Char) :=
  if root.isPrefixOf p then Except.ok (joinSlash (p.drop root.length))
  else Except.error TrackErr.stripFailed

/-- The upload loop over the gathered files; `uploadOk` models
`upload_local_file` (reading the file and checking the put status). -/
def uploadAll (uploadOk : LPath → List Char → Bool) (root : LPath) :
    List LPath → Except TrackErr (List TrackEvent)
  | [] => Except.ok []
  | p :: rest =>
    match keyOfPath root p with
    | Except.error e => Except.error e
    | Except.ok k =>
      if uploadOk p k then
        match uploadAll uploadOk root rest with
        | Except.ok evs => Except.ok (TrackEvent.upload p k :: evs)
        | Except.error e => Except.error e
      else Except.error TrackErr.uploadFailed

/-- `track` from `src/src/main.rs`.  Sources are taken already absolutized.
The explicit-target check sits INSIDE the per-source loop: with a target
given, the first loop iteration either bails (first source is a directory) or
returns after uploading the FIRST source to the target — later sources are
never examined, and with no sources at all the loop body never runs and the
call succeeds with no uploads.  Lifting the immutable `remote_path` match out
of the loop is exact: in the no-target case that branch never fires. -/
def track (isDir : LPath → Bool) (expand : LPath → List LPath)
    (uploadOk : LPath → List Char → Bool) (root : LPath)
    (remotePath : Option (List Char)) (sources : List LPath) :
    Except TrackErr (List TrackEvent) :=
  match remotePath with
  | some rp =>
    match sources with
    | [] => Except.ok []
    | src :: _ =>
      if isDir src then Except.error TrackErr.targetWithDirSource
      else if uploadOk src rp then Except.ok [TrackEvent.upload src rp]
      else Except.error TrackErr.uploadFailed
  | none =>
    match trackGather isDir expand root sources [] with
    | Except.error e => Except.error e
    | Except.ok files => uploadAll uploadOk root files

/-- Evaluation of `track` on the C4 failing input: an explicit target `t`
with TWO plain-file sources `a` and `b`.  The claim (and the code's own
error message, which says the remote path requires a single source file)
demands a usage error and no upload; the code instead uploads the first
source to the target, silently ignores the second, and reports success. -/
theorem track_two_sources_with_target_uploads_first :
    track (fun _ => false) (fun _ => []) (fun _ _ => true) [['r']]
        (some ['t']) [[['a']], [['b']]]
      = Except.ok [TrackEvent.upload [['a']] ['t']] := by
  rfl
